import Mathlib

/-!
Verification of the sharded loss-computation engine and decoder state
management of the OpenNMT evidential-softmax repository.

The embedding models tensors by their batch-indexed contents:
a tensor that the code only ever slices along dimension 0 is a
`List α` of rows; rank-3 float tensors are `List (List (List ℚ))`
(exact rational arithmetic stands in for floating point, so
"up to floating-point tolerance" statements become equalities);
integer token tensors are `List (List Int)`.  Autograd is outside the
value model: `clone`/`requires_grad`/`detach` are value-identities,
recorded where relevant by an explicit `requiresGrad` flag.
-/

/-- Python runtime errors that the modelled code paths can raise. -/
inductive PyErr : Type
  | assertionError
  | zeroDivisionError
  | indexError
  | typeError
  | attributeError
  | valueError
  deriving DecidableEq, Repr

/-- Python slicing `xs[a:b]` on dimension 0 with non-negative clamped bounds. -/
def slicePy {α : Type} (a b : Nat) (xs : List α) : List α :=
  (xs.take b).drop a

/-- Fuel-driven splitting loop (structural recursion, so that concrete
instances evaluate inside the kernel); `chunksOf` supplies the list length
as fuel, which `chunksOfFuel_eq_of_le` shows is always enough. -/
def chunksOfFuel {α : Type} (s : Nat) : Nat → List α → List (List α)
  | 0, _ => []
  | _, [] => []
  | fuel + 1, x :: rest =>
    if s = 0 then []
    else (x :: rest).take s :: chunksOfFuel s fuel ((x :: rest).drop s)

/-- Model of `torch.split(v, s)` along dimension 0: contiguous chunks of at
most `s` rows, in order, the last chunk possibly smaller.  `torch.split`
raises for `s = 0` on a non-empty dimension; the model returns `[]` there and
theorems assume `0 < s`. -/
def chunksOf {α : Type} (s : Nat) (xs : List α) : List (List α) :=
  chunksOfFuel s xs.length xs

theorem chunksOfFuel_congr {α : Type} (s : Nat) :
    ∀ (f g : Nat) (xs : List α), xs.length ≤ f → xs.length ≤ g →
      chunksOfFuel s f xs = chunksOfFuel s g xs := by
  intro f
  induction f with
  | zero =>
    intro g xs hf hg
    have : xs = [] := List.eq_nil_of_length_eq_zero (Nat.le_zero.mp hf)
    subst this
    cases g <;> rfl
  | succ f ih =>
    intro g xs hf hg
    cases xs with
    | nil => cases g <;> rfl
    | cons x rest =>
      cases g with
      | zero => simp at hg
      | succ g =>
        by_cases hs : s = 0
        · subst hs
          simp [chunksOfFuel]
        · have hdf : ((x :: rest).drop s).length ≤ f := by
            simp only [List.length_drop, List.length_cons] at *
            omega
          have hdg : ((x :: rest).drop s).length ≤ g := by
            simp only [List.length_drop, List.length_cons] at *
            omega
          simp only [chunksOfFuel, hs, if_false]
          rw [ih g ((x :: rest).drop s) hdf hdg]

theorem chunksOfFuel_eq_of_le {α : Type} (s : Nat) (f : Nat) (xs : List α)
    (hx : xs.length ≤ f) : chunksOfFuel s f xs = chunksOf s xs :=
  chunksOfFuel_congr s f xs.length xs hx (Nat.le_refl _)

theorem chunksOf_nil {α : Type} (s : Nat) : chunksOf s ([] : List α) = [] :=
  rfl

theorem chunksOf_zero {α : Type} (xs : List α) : chunksOf 0 xs = [] := by
  cases xs with
  | nil => rfl
  | cons x rest => simp [chunksOf, chunksOfFuel]

theorem chunksOf_cons_eq {α : Type} (s : Nat) (hs : 0 < s) (xs : List α)
    (hx : xs ≠ []) : chunksOf s xs = xs.take s :: chunksOf s (xs.drop s) := by
  cases xs with
  | nil => exact absurd rfl hx
  | cons x rest =>
    have hdrop : ((x :: rest).drop s).length ≤ rest.length := by
      simp only [List.length_drop, List.length_cons]
      omega
    simp only [chunksOf, List.length_cons, chunksOfFuel,
      Nat.pos_iff_ne_zero.mp hs, if_false]
    rw [chunksOfFuel_eq_of_le s rest.length ((x :: rest).drop s) hdrop]
    rfl

/-- Concatenating the chunks of `torch.split` reconstructs the tensor. -/
theorem flatten_chunksOf {α : Type} (s : Nat) (hs : 0 < s) (xs : List α) :
    (chunksOf s xs).flatten = xs := by
  have key : ∀ (n : Nat) (ys : List α), ys.length ≤ n →
      (chunksOf s ys).flatten = ys := by
    intro n
    induction n with
    | zero =>
      intro ys hy
      have : ys = [] := List.eq_nil_of_length_eq_zero (Nat.le_zero.mp hy)
      subst this
      simp [chunksOf_nil]
    | succ n ih =>
      intro ys hy
      by_cases hye : ys = []
      · subst hye; simp [chunksOf_nil]
      · rw [chunksOf_cons_eq s hs ys hye]
        have hlen : (ys.drop s).length ≤ n := by
          have : 0 < ys.length := List.length_pos.mpr hye
          simp only [List.length_drop]
          omega
        rw [List.flatten_cons, ih (ys.drop s) hlen, List.take_append_drop]
  exact key xs.length xs (Nat.le_refl _)

/-- The number of chunks depends only on the length of the input. -/
theorem chunksOf_length_congr {α β : Type} (s : Nat) :
    ∀ (xs : List α) (ys : List β), xs.length = ys.length →
      (chunksOf s xs).length = (chunksOf s ys).length := by
  by_cases hs : s = 0
  · intro xs ys _
    subst hs
    simp [chunksOf_zero]
  · have hs0 : 0 < s := Nat.pos_of_ne_zero hs
    have key : ∀ (n : Nat) (xs : List α) (ys : List β), xs.length ≤ n →
        xs.length = ys.length →
        (chunksOf s xs).length = (chunksOf s ys).length := by
      intro n
      induction n with
      | zero =>
        intro xs ys hx hxy
        have h1 : xs = [] := List.eq_nil_of_length_eq_zero (Nat.le_zero.mp hx)
        have h2 : ys = [] := by
          apply List.eq_nil_of_length_eq_zero
          subst h1
          simpa using hxy.symm
        subst h1; subst h2
        simp [chunksOf_nil]
      | succ n ih =>
        intro xs ys hx hxy
        by_cases hxe : xs = []
        · have hye : ys = [] := by
            apply List.eq_nil_of_length_eq_zero
            subst hxe
            simpa using hxy.symm
          subst hxe; subst hye
          simp [chunksOf_nil]
        · have hye : ys ≠ [] := by
            intro hc
            apply hxe
            apply List.eq_nil_of_length_eq_zero
            subst hc
            simpa using hxy
          rw [chunksOf_cons_eq s hs0 xs hxe, chunksOf_cons_eq s hs0 ys hye]
          simp only [List.length_cons]
          have hrec : (xs.drop s).length = (ys.drop s).length := by
            simp only [List.length_drop]
            omega
          have hle : (xs.drop s).length ≤ n := by
            have : 0 < xs.length := List.length_pos.mpr hxe
            simp only [List.length_drop]
            omega
          rw [ih (xs.drop s) (ys.drop s) hle hrec]
    intro xs ys hxy
    exact key xs.length xs ys (Nat.le_refl _) hxy

/-- Every chunk produced by `torch.split(v, s)` has at most `s` rows. -/
theorem chunksOf_mem_length_le {α : Type} (s : Nat) (xs : List α) :
    ∀ c ∈ chunksOf s xs, c.length ≤ s := by
  have key : ∀ (n : Nat) (ys : List α), ys.length ≤ n →
      ∀ c ∈ chunksOf s ys, c.length ≤ s := by
    intro n
    induction n with
    | zero =>
      intro ys hy c hc
      have : ys = [] := List.eq_nil_of_length_eq_zero (Nat.le_zero.mp hy)
      subst this
      simp [chunksOf_nil] at hc
    | succ n ih =>
      intro ys hy c hc
      by_cases hs : s = 0
      · subst hs; simp [chunksOf_zero] at hc
      · by_cases hye : ys = []
        · subst hye; simp [chunksOf_nil] at hc
        · rw [chunksOf_cons_eq s (Nat.pos_of_ne_zero hs) ys hye] at hc
          rcases List.mem_cons.mp hc with hc | hc
          · subst hc
            simp
          · have hlen : (ys.drop s).length ≤ n := by
              have : 0 < ys.length := List.length_pos.mpr hye
              simp only [List.length_drop]
              omega
            exact ih (ys.drop s) hlen c hc
  exact key xs.length xs (Nat.le_refl _)

/-- A canonical chunk count for inputs of length `n` (the chunk count of any
list of length `n`, by `chunksOf_length_congr`). -/
def numChunks (s n : Nat) : Nat :=
  (chunksOf s (List.range n)).length

theorem chunksOf_length_eq_numChunks {α : Type} (s : Nat) (xs : List α) :
    (chunksOf s xs).length = numChunks s xs.length := by
  exact chunksOf_length_congr s xs (List.range xs.length) (by simp)

/-- Association-list lookup modelling Python `dict` access by key
(dicts preserve insertion order; keys are unique in a `dict`). -/
def lookupA {β : Type} : List (String × β) → String → Option β
  | [], _ => none
  | (k, v) :: rest, key => if k = key then some v else lookupA rest key

/-- Model of `filter_shard_state(state, shard_size)` for an integer
`shard_size` (the branch taken by `shards` when `eval_only` is false):
keys with value `None` are dropped; every tensor value is paired with its
`torch.split` chunks.  The `clone()`/`requires_grad` handling of the source
only affects the autograd graph, not values, so chunks are the split slices
themselves. -/
def filter_shard_state {α : Type} (s : Nat)
    (state : List (String × Option (List α))) :
    List (String × (List α × List (List α))) :=
  state.filterMap (fun p => p.2.map (fun t => (p.1, (t, chunksOf s t))))

/-- Length of the shortest member, modelling how Python `zip(*values)`
truncates to the shortest input (`zip()` of nothing yields nothing). -/
def minChunks {β : Type} : List (List β) → Nat
  | [] => 0
  | v :: rest => rest.foldl (fun m u => min m u.length) v.length

/-- Model of Python `zip(*vss)`: transpose truncated to the shortest row. -/
def transposeMin {β : Type} (dflt : β) (vss : List (List β)) : List (List β) :=
  (List.range (minChunks vss)).map (fun j => vss.map (fun vs => vs.getD j dflt))

/-- Model of the yield loop of `shards(state, shard_size)` (training mode):
the sequence of shard dictionaries produced by
`for shard_tensors in zip(*values): yield dict(zip(keys, shard_tensors))`,
with `keys`/`values` taken in insertion order from
`filter_shard_state(state, shard_size)`.  The deferred
`torch.autograd.backward` after the last yield is an autograd-graph side
effect outside the value model. -/
def shards {α : Type} (s : Nat) (state : List (String × Option (List α))) :
    List (List (String × List α)) :=
  let nonNone := filter_shard_state s state
  let keys := nonNone.map Prod.fst
  let values := nonNone.map (fun p => p.2.2)
  (transposeMin [] values).map (fun row => keys.zip row)

/-- One item yielded by the `filter_shard_state` generator: the eval-mode
branch yields raw `(k, v)` pairs, the split branch yields `(k, (v, v_split))`. -/
inductive FSYield (α : Type) : Type
  | plain : Option (List α) → FSYield α
  | paired : List α × List (List α) → FSYield α
  deriving DecidableEq, Repr

/-- Model of `torch.split(v, shard_size)` where `shard_size` may be Python
`None`: `torch.split` requires an integer split size and raises `TypeError`
on `None`. -/
def torchSplitOpt {α : Type} (shardSize : Option Nat) (t : List α) :
    Except PyErr (List (List α)) :=
  match shardSize with
  | none => .error .typeError
  | some s => .ok (chunksOf s t)

/-- Run of the `filter_shard_state(state, shard_size)` generator, recording
the yielded items in order together with the exception, if any, that
terminates it.  Mirrors the source line by line: for each `(k, v)` of the
state, if `shard_size is None` it first yields `(k, v)`; then, whenever
`v is not None`, it splits `v` (which raises `TypeError` when `shard_size`
is `None` and `v` is a tensor) and yields `(k, (v, v_split))`. -/
def filterShardStateRun {α : Type} (shardSize : Option Nat) :
    List (String × Option (List α)) →
    List (String × FSYield α) × Option PyErr
  | [] => ([], none)
  | (k, v) :: rest =>
    let head : List (String × FSYield α) :=
      if shardSize.isNone then [(k, FSYield.plain v)] else []
    match v with
    | none =>
      let tail := filterShardStateRun shardSize rest
      (head ++ tail.1, tail.2)
    | some t =>
      match torchSplitOpt shardSize t with
      | .error e => (head, some e)
      | .ok chunks =>
        let tail := filterShardStateRun shardSize rest
        (head ++ (k, FSYield.paired (t, chunks)) :: tail.1, tail.2)

/-- In sharding mode (`shard_size` an integer) the generator run never raises
and yields exactly the pairs of `filter_shard_state`. -/
theorem filterShardStateRun_some {α : Type} (s : Nat)
    (state : List (String × Option (List α))) :
    filterShardStateRun (some s) state =
      ((filter_shard_state s state).map (fun p => (p.1, FSYield.paired p.2)),
        none) := by
  induction state with
  | nil => rfl
  | cons p rest ih =>
    obtain ⟨k, v⟩ := p
    cases v with
    | none =>
      simp [filterShardStateRun, filter_shard_state, torchSplitOpt, ih]
    | some t =>
      simp [filterShardStateRun, filter_shard_state, torchSplitOpt, ih]

theorem getD_map_of_lt {β γ : Type} (f : β → γ) (l : List β) :
    ∀ (i : Nat) (d₁ : β) (d₂ : γ), i < l.length →
      (l.map f).getD i d₂ = f (l.getD i d₁) := by
  induction l with
  | nil => intro i d₁ d₂ h; simp at h
  | cons x rest ih =>
    intro i d₁ d₂ h
    cases i with
    | zero => simp
    | succ i =>
      simp only [List.map_cons, List.getD_cons_succ]
      exact ih i d₁ d₂ (by simpa using Nat.lt_of_succ_lt_succ h)

theorem range_map_getD {β : Type} (l : List β) (d : β) :
    (List.range l.length).map (fun j => l.getD j d) = l := by
  induction l with
  | nil => simp
  | cons x rest ih =>
    rw [List.length_cons, List.range_succ_eq_map, List.map_cons, List.map_map]
    have hc : List.map ((fun j => (x :: rest).getD j d) ∘ Nat.succ)
        (List.range rest.length) =
        List.map (fun j => rest.getD j d) (List.range rest.length) :=
      List.map_congr_left (fun a _ => by simp)
    rw [hc, ih]
    simp

theorem getD_eq_default_of_le {β : Type} (l : List β) (d : β) (i : Nat)
    (h : l.length ≤ i) : l.getD i d = d := by
  induction l generalizing i with
  | nil => simp
  | cons x rest ih =>
    cases i with
    | zero => simp at h
    | succ i =>
      simp only [List.getD_cons_succ]
      exact ih i (by simpa using Nat.le_of_succ_le_succ h)

theorem getD_mem_of_lt {β : Type} (l : List β) (d : β) (i : Nat)
    (h : i < l.length) : l.getD i d ∈ l := by
  induction l generalizing i with
  | nil => simp at h
  | cons x rest ih =>
    cases i with
    | zero => simp
    | succ i =>
      simp only [List.getD_cons_succ]
      exact List.mem_cons_of_mem x (ih i (Nat.lt_of_succ_lt_succ h))

theorem minChunks_const {β : Type} (vss : List (List β)) (c : Nat)
    (hne : vss ≠ []) (h : ∀ vs ∈ vss, vs.length = c) : minChunks vss = c := by
  cases vss with
  | nil => exact absurd rfl hne
  | cons v rest =>
    have hv : v.length = c := h v (by simp)
    have key : ∀ (l : List (List β)) (acc : Nat),
        (∀ u ∈ l, u.length = c) → acc = c →
        l.foldl (fun m u => min m u.length) acc = c := by
      intro l
      induction l with
      | nil => intro acc _ hacc; simpa using hacc
      | cons u us ih =>
        intro acc hall hacc
        simp only [List.foldl_cons]
        refine ih (min acc u.length) (fun w hw => hall w (by simp [hw])) ?_
        rw [hacc, hall u (by simp)]
        simp
    simp only [minChunks]
    exact key rest v.length (fun w hw => h w (by simp [hw])) hv

theorem zip_map_pair {β γ δ : Type} (f₁ : β → γ) (f₂ : β → δ) (l : List β) :
    (l.map f₁).zip (l.map f₂) = l.map (fun p => (f₁ p, f₂ p)) := by
  induction l with
  | nil => rfl
  | cons x rest ih => simp [ih]

/-- Structure of the yielded shards for a state whose tensors all have the
same batch dimension `n`: one shard per chunk index, pairing every key with
its chunk of that index. -/
theorem shards_uniform {α : Type} (s n : Nat)
    (state : List (String × List α)) (hne : state ≠ [])
    (hlen : ∀ p ∈ state, p.2.length = n) :
    shards s (state.map (fun p => (p.1, some p.2))) =
      (List.range (numChunks s n)).map
        (fun j => state.map (fun p => (p.1, (chunksOf s p.2).getD j []))) := by
  have hfss : ∀ (st : List (String × List α)),
      filter_shard_state s (st.map (fun p => (p.1, some p.2))) =
      st.map (fun p => (p.1, (p.2, chunksOf s p.2))) := by
    intro st
    induction st with
    | nil => rfl
    | cons q qs ih =>
      simp only [filter_shard_state] at ih ⊢
      simp only [List.map_cons, List.filterMap_cons, Option.map_some]
      rw [ih]
      rfl
  simp only [shards]
  rw [hfss state]
  have hvals : (state.map (fun p => (p.1, (p.2, chunksOf s p.2)))).map
      (fun p => p.2.2) = state.map (fun p => chunksOf s p.2) := by
    rw [List.map_map]
    rfl
  have hkeys : (state.map (fun p => (p.1, (p.2, chunksOf s p.2)))).map
      Prod.fst = state.map Prod.fst := by
    rw [List.map_map]
    rfl
  rw [hvals, hkeys]
  simp only [transposeMin]
  have hminc : minChunks (state.map (fun p => chunksOf s p.2)) =
      numChunks s n := by
    apply minChunks_const
    · simpa using hne
    · intro vs hvs
      obtain ⟨p, hp, hpe⟩ := List.mem_map.mp hvs
      rw [← hpe, chunksOf_length_eq_numChunks, hlen p hp]
  rw [hminc, List.map_map]
  refine List.map_congr_left (fun j _ => ?_)
  show (state.map Prod.fst).zip
      ((state.map (fun p => chunksOf s p.2)).map (fun vs => vs.getD j [])) = _
  rw [List.map_map]
  exact zip_map_pair Prod.fst (fun p => (chunksOf s p.2).getD j []) state

theorem range_min_map_getD {β γ δ : Type} (f : β → γ → δ) (da : β) (db : γ) :
    ∀ (a : List β) (b : List γ),
      (List.range (min a.length b.length)).map
        (fun j => f (a.getD j da) (b.getD j db)) =
      (a.zip b).map (fun p => f p.1 p.2) := by
  intro a
  induction a with
  | nil => intro b; simp
  | cons x rest ih =>
    intro b
    cases b with
    | nil => simp
    | cons y brest =>
      rw [List.length_cons, List.length_cons, Nat.succ_min_succ,
        List.range_succ_eq_map, List.map_cons, List.map_map,
        List.zip_cons_cons, List.map_cons]
      have hc : List.map
          ((fun j => f ((x :: rest).getD j da) ((y :: brest).getD j db)) ∘
            Nat.succ) (List.range (min rest.length brest.length)) =
          List.map (fun j => f (rest.getD j da) (brest.getD j db))
            (List.range (min rest.length brest.length)) :=
        List.map_congr_left (fun a _ => by simp)
      rw [hc, ih brest]
      simp

/-- For the two-key shard state produced by `NMTLossCompute._make_shard_state`
the yielded shards are exactly the zip of the two chunk sequences (which,
like Python `zip`, truncates to the shorter one). -/
theorem shards_pair {α : Type} (s : Nat) (k₁ k₂ : String) (A B : List α) :
    shards s [(k₁, some A), (k₂, some B)] =
      ((chunksOf s A).zip (chunksOf s B)).map
        (fun p => [(k₁, p.1), (k₂, p.2)]) := by
  have hfss : filter_shard_state s [(k₁, some A), (k₂, some B)] =
      [(k₁, (A, chunksOf s A)), (k₂, (B, chunksOf s B))] := by
    simp [filter_shard_state]
  simp only [shards]
  rw [hfss]
  simp only [List.map_cons, List.map_nil]
  simp only [transposeMin]
  have hmin : minChunks [chunksOf s A, chunksOf s B] =
      min (chunksOf s A).length (chunksOf s B).length := by
    simp [minChunks]
  rw [hmin, List.map_map]
  exact range_min_map_getD (fun x y => [(k₁, x), (k₂, y)]) [] []
    (chunksOf s A) (chunksOf s B)

/-- Modelled from the spec: `onmt.utils.statistics.Statistics` is imported by
`loss.py` but its source file is not part of the repository snapshot.  The
spec describes it as an accumulator record
{loss, num_non_padding_tokens, num_correct} whose `update` merges two
instances by pairwise sum.  `Statistics()` with no arguments is the
zero-contribution record. -/
structure Statistics : Type where
  loss : ℚ
  n_words : Nat
  n_correct : Nat
  deriving DecidableEq, Repr

/-- Modelled from the spec: the empty `Statistics()` accumulator. -/
def Statistics.empty : Statistics :=
  { loss := 0, n_words := 0, n_correct := 0 }

/-- Modelled from the spec: `Statistics.update` merges by pairwise sum. -/
def Statistics.update (a b : Statistics) : Statistics :=
  { loss := a.loss + b.loss,
    n_words := a.n_words + b.n_words,
    n_correct := a.n_correct + b.n_correct }

/-- Model of `scores.max(1)[1]` for one row: the index of a maximal entry
(ties resolved to the first maximal index; no claim depends on tie order). -/
def argmaxIdx (row : List ℚ) : Nat :=
  (List.range row.length).foldl
    (fun best j => if row.getD best 0 < row.getD j 0 then j else best) 0

/-- Model of `LossComputeBase._stats(loss, scores, target)`:
`pred = scores.max(1)[1]`, `non_padding = target.ne(padding_idx)`,
`num_correct` counts non-padding positions where `pred == target`,
`num_non_padding` counts non-padding positions. -/
def lossStats (padding_idx : Int) (loss : ℚ) (scores : List (List ℚ))
    (target : List Int) : Statistics :=
  { loss := loss,
    n_words := (target.filter (fun t => t ≠ padding_idx)).length,
    n_correct := ((scores.zip target).filter
      (fun p => (argmaxIdx p.1 : Int) = p.2 ∧ p.2 ≠ padding_idx)).length }

/-- Model of `LossComputeBase._bottle`: `view(-1, size(2))` reshapes a
`[tgt_len, batch, hidden]` tensor into `tgt_len * batch` rows in dimension-0
major order. -/
def bottle (v : List (List (List ℚ))) : List (List ℚ) :=
  v.flatten

/-- The shard state built by `NMTLossCompute._make_shard_state`: a dict with
exactly the keys `output` and `target` (modelled as a two-field record, which
is also the exact keyword-argument interface of
`NMTLossCompute._compute_loss`). -/
structure NMTShardState : Type where
  output : List (List (List ℚ))
  target : List (List Int)
  deriving DecidableEq, Repr

/-- Model of `NMTLossCompute._make_shard_state(batch, output, range_)`:
`output` passed through, `target = batch.tgt[range_[0] + 1 : range_[1]]`. -/
def nmt_make_shard_state (output : List (List (List ℚ)))
    (tgt : List (List Int)) (range_ : Nat × Nat) : NMTShardState :=
  { output := output, target := slicePy (range_.1 + 1) range_.2 tgt }

/-- Stated from the spec words of the claim, for comparison with the code:
a target restricted to positions `[range_start, range_end)` of `batch.tgt`. -/
def make_shard_state_target_spec (tgt : List (List Int))
    (range_ : Nat × Nat) : List (List Int) :=
  slicePy range_.1 range_.2 tgt

/-- Model of `NMTLossCompute._compute_loss(batch, output, target,
should_compute_stats)`.  The generator collaborator is a row-wise map
`g : hidden row → vocabulary scores` and the criterion collaborator is, per
its contract (padding-aware kernel with `reduction="sum"`), the sum over
rows of a per-row loss `f : scores row → gold token → loss`.  Returns the
loss together with the `Statistics` (empty when
`should_compute_stats=False`). -/
def nmt_compute_loss (g : List ℚ → List ℚ) (f : List ℚ → Int → ℚ)
    (padding_idx : Int) (output : List (List (List ℚ)))
    (target : List (List Int)) (should_compute_stats : Bool) :
    ℚ × Statistics :=
  let bottled_output := bottle output
  let scores := bottled_output.map g
  let gtruth := target.flatten
  let loss := ((scores.zip gtruth).map (fun p => f p.1 p.2)).sum
  (loss,
    if should_compute_stats then lossStats padding_idx loss scores gtruth
    else Statistics.empty)

/-- Model of `LossComputeBase.monolithic_compute_loss`: one unsharded
`_compute_loss` over the full range `(0, batch.tgt.size(0))`; only the
statistics are returned (the loss value is discarded, no backward pass). -/
def monolithic_compute_loss (g : List ℚ → List ℚ) (f : List ℚ → Int → ℚ)
    (padding_idx : Int) (output : List (List (List ℚ)))
    (tgt : List (List Int)) : Statistics :=
  let range_ := (0, tgt.length)
  let shard_state := nmt_make_shard_state output tgt range_
  (nmt_compute_loss g f padding_idx shard_state.output shard_state.target
    true).2

/-- The loss value that the single `_compute_loss` call inside
`monolithic_compute_loss` computes (the value bound to `_` in the source). -/
def monolithic_loss_val (g : List ℚ → List ℚ) (f : List ℚ → Int → ℚ)
    (padding_idx : Int) (output : List (List (List ℚ)))
    (tgt : List (List Int)) : ℚ :=
  let range_ := (0, tgt.length)
  let shard_state := nmt_make_shard_state output tgt range_
  (nmt_compute_loss g f padding_idx shard_state.output shard_state.target
    true).1

/-- The per-shard `(loss, stats)` results of
`LossComputeBase.sharded_compute_loss`: the shard state is
`_make_shard_state(batch, output, (cur_trunc, cur_trunc + trunc_size))` and,
by `shards_pair`, iterating `shards(shard_state, shard_size)` yields the zip
of the `output` and `target` chunk sequences; shard `i` is evaluated with
`should_compute_stats = (i == 0)`. -/
def sharded_shard_results (g : List ℚ → List ℚ) (f : List ℚ → Int → ℚ)
    (padding_idx : Int) (output : List (List (List ℚ)))
    (tgt : List (List Int)) (cur_trunc trunc_size shard_size : Nat) :
    List (ℚ × Statistics) :=
  let range_ := (cur_trunc, cur_trunc + trunc_size)
  let shard_state := nmt_make_shard_state output tgt range_
  let shardPairs :=
    (chunksOf shard_size shard_state.output).zip
      (chunksOf shard_size shard_state.target)
  shardPairs.enum.map
    (fun ip => nmt_compute_loss g f padding_idx ip.2.1 ip.2.2 (ip.1 = 0))

/-- The total loss accumulated by `sharded_compute_loss` across its shard
loop, before the division by `normalization` (`loss.div` is not in-place, so
the summed per-shard losses are the raw criterion values; the division and
`backward()` affect only the gradients, which are outside the value model). -/
def sharded_compute_loss_total (g : List ℚ → List ℚ) (f : List ℚ → Int → ℚ)
    (padding_idx : Int) (output : List (List (List ℚ)))
    (tgt : List (List Int)) (cur_trunc trunc_size shard_size : Nat) : ℚ :=
  ((sharded_shard_results g f padding_idx output tgt cur_trunc trunc_size
    shard_size).map Prod.fst).sum

/-- The `batch_stats` returned by `sharded_compute_loss`: starting from
`Statistics()` every per-shard statistics record is merged by
`batch_stats.update(stats)`. -/
def sharded_compute_loss_stats (g : List ℚ → List ℚ) (f : List ℚ → Int → ℚ)
    (padding_idx : Int) (output : List (List (List ℚ)))
    (tgt : List (List Int)) (cur_trunc trunc_size shard_size : Nat) :
    Statistics :=
  (sharded_shard_results g f padding_idx output tgt cur_trunc trunc_size
    shard_size).foldl (fun acc r => acc.update r.2) Statistics.empty

/-- Tensor assignment `one_hot[i] = x` with Python/torch index semantics:
an index `i` is valid when `-len ≤ i < len`, negative indices counting from
the end; an invalid index raises `IndexError`. -/
def setIndexPy (l : List ℚ) (i : Int) (x : ℚ) : Option (List ℚ) :=
  if 0 ≤ i ∧ i < (l.length : Int) then some (l.set i.toNat x)
  else if -(l.length : Int) ≤ i ∧ i < 0 then
    some (l.set (i + (l.length : Int)).toNat x)
  else none

/-- The state built by a successful `LabelSmoothingLoss.__init__`. -/
structure LabelSmoothingState : Type where
  one_hot : List ℚ
  confidence : ℚ
  ignore_index : Int
  deriving DecidableEq, Repr

/-- Model of `LabelSmoothingLoss.__init__(label_smoothing, tgt_vocab_size,
ignore_index)`: asserts `0.0 < label_smoothing <= 1.0`; computes
`smoothing_value = label_smoothing / (tgt_vocab_size - 2)` (Python division
raises `ZeroDivisionError` when `tgt_vocab_size == 2`); fills a
`tgt_vocab_size` vector with it and zeroes the `ignore_index` entry (which
raises `IndexError` when that index is out of bounds). -/
def labelSmoothingInit (label_smoothing : ℚ) (tgt_vocab_size : Nat)
    (ignore_index : Int) : Except PyErr LabelSmoothingState :=
  if ¬(0 < label_smoothing ∧ label_smoothing ≤ 1) then
    .error .assertionError
  else if tgt_vocab_size = 2 then .error .zeroDivisionError
  else
    let smoothing_value := label_smoothing / ((tgt_vocab_size : ℚ) - 2)
    let one_hot := List.replicate tgt_vocab_size smoothing_value
    match setIndexPy one_hot ignore_index 0 with
    | none => .error .indexError
    | some oh =>
      .ok { one_hot := oh, confidence := 1 - label_smoothing,
            ignore_index := ignore_index }

/-- The configuration fields of `opt` read by `build_loss_compute`
(`loss_alpha` is a Python float, modelled as a rational). -/
structure LossOpt : Type where
  loss_fn : String
  loss_alpha : ℚ
  k : Nat
  bisect_iter : Nat
  deriving DecidableEq, Repr

/-- The closed set of criterion kernels `build_loss_compute` can select. -/
inductive Criterion : Type
  | esoftmax
  | crossEntropy
  | sparsemaxTopK (k : Nat)
  | sparsemaxBisect (n_iter : Nat)
  | sparsemax
  | tsallis15TopK (k : Nat)
  | tsallis15
  | tsallisBisect (alpha : ℚ) (n_iter : Nat)
  deriving DecidableEq, Repr

/-- Model of the criterion selection of `build_loss_compute(model, tgt_vocab,
opt)`: first the assertion that top-k and bisection are mutually exclusive,
then the `loss_fn`/`loss_alpha`/`k`/`bisect_iter` dispatch.  The device
placement, padding index lookup and generator wiring carry no selection
logic and are outside the model. -/
def build_loss_compute (opt : LossOpt) : Except PyErr Criterion :=
  if ¬(opt.k = 0 ∨ opt.bisect_iter = 0) then .error .assertionError
  else if opt.loss_fn = "esoftmax" then .ok .esoftmax
  else if opt.loss_alpha = 1 then .ok .crossEntropy
  else if opt.loss_alpha = 2 then
    if 0 < opt.k then .ok (.sparsemaxTopK opt.k)
    else if 0 < opt.bisect_iter then .ok (.sparsemaxBisect opt.bisect_iter)
    else .ok .sparsemax
  else if opt.loss_alpha = 3 / 2 ∧ opt.bisect_iter = 0 then
    if 0 < opt.k then .ok (.tsallis15TopK opt.k)
    else .ok .tsallis15
  else .ok (.tsallisBisect opt.loss_alpha opt.bisect_iter)

/-- Size of dimension 1 of a `[src_len, batch, depth]` tensor
(`memory_bank.size(1)`), assuming rectangularity. -/
def size1 (t : List (List (List ℚ))) : Nat :=
  (t.getD 0 []).length

/-- Size of the last dimension of a `[src_len, batch, depth]` tensor
(`memory_bank.size(-1)`), assuming rectangularity. -/
def sizeLast (t : List (List (List ℚ))) : Nat :=
  ((t.getD 0 []).getD 0 []).length

/-- Model of `torch.zeros((a, b, c))`. -/
def zeros3 (a b c : Nat) : List (List (List ℚ)) :=
  List.replicate a (List.replicate b (List.replicate c 0))

/-- A transformer layer cache: a dict from key name to tensor-or-`None`. -/
abbrev LayerCache : Type :=
  List (String × Option (List (List (List ℚ))))

/-- Model of `TransformerDecoder._init_cache(memory_bank, num_layers,
self_attn_type)`: one entry per layer named `layer_0 .. layer_{n-1}`, each a
fresh dict holding `memory_keys`/`memory_values` as `None` plus, for
scaled-dot (and the fallback branch), `self_keys`/`self_values` as `None`,
or, for average attention, `prev_g` initialized to
`torch.zeros((batch_size, 1, depth))` where `batch_size = memory_bank.size(1)`
and `depth = memory_bank.size(-1)`. -/
def init_cache (memory_bank : List (List (List ℚ))) (num_layers : Nat)
    (self_attn_type : String) : List (String × LayerCache) :=
  let batch_size := size1 memory_bank
  let depth := sizeLast memory_bank
  (List.range num_layers).map (fun l =>
    ("layer_" ++ toString l,
      if self_attn_type = "scaled-dot" then
        [("memory_keys", none), ("memory_values", none),
         ("self_keys", none), ("self_values", none)]
      else if self_attn_type = "average" then
        [("memory_keys", none), ("memory_values", none),
         ("prev_g", some (zeros3 batch_size 1 depth))]
      else
        [("memory_keys", none), ("memory_values", none),
         ("self_keys", none), ("self_values", none)]))

/-- The cache after the cache-management prologue of
`TransformerDecoder.forward(..., step=step)`: `_init_cache` runs exactly when
`step == 0`, otherwise the existing cache is kept. -/
def decoderForwardCache (step : Option Nat)
    (cache : Option (List (String × LayerCache)))
    (memory_bank : List (List (List ℚ))) (num_layers : Nat)
    (self_attn_type : String) : Option (List (String × LayerCache)) :=
  if step = some 0 then some (init_cache memory_bank num_layers self_attn_type)
  else cache

/-- The `TransformerDecoder.state` dict: `src` plus the optional two-level
cache (`init_state` sets `cache = None`). -/
structure TransformerState : Type where
  src : List (List (List ℚ))
  cache : Option (List (String × LayerCache))

/-- Model of `TransformerDecoder.init_state(src, memory_bank, enc_hidden)`. -/
def transformer_init_state (src : List (List (List ℚ))) : TransformerState :=
  { src := src, cache := none }

/-- Model of `TransformerDecoder.map_state(fn)`: `src` is mapped with batch
dimension 1; `_recursive_map` walks the two-level cache dict, skips `None`
leaves and applies `fn` with the default batch dimension 0 to tensor
leaves. -/
def map_state (fn : List (List (List ℚ)) → Nat → List (List (List ℚ)))
    (st : TransformerState) : TransformerState :=
  { src := fn st.src 1,
    cache := st.cache.map (fun c =>
      c.map (fun p =>
        (p.1, p.2.map (fun q => (q.1, q.2.map (fun t => fn t 0)))))) }

/-- Reversal of a tensor along dimension `d` (the batch-reversal test
function of the claim: `fn(v, dim) = v.flip(dim)` restricted to rank 3). -/
def revDim (t : List (List (List ℚ))) (d : Nat) : List (List (List ℚ)) :=
  if d = 0 then t.reverse
  else if d = 1 then t.map List.reverse
  else t.map (fun m => m.map List.reverse)

/-- Lookup of a leaf tensor slot in a transformer decoder state cache:
layer name, then cache key.  `none` means the slot is absent; `some none`
means the slot holds Python `None`. -/
def cacheLeaf (st : TransformerState) (layer key : String) :
    Option (Option (List (List (List ℚ)))) :=
  st.cache.bind (fun c => (lookupA c layer).bind (fun lc => lookupA lc key))

theorem lookupA_map_value {β γ : Type} (f : β → γ)
    (l : List (String × β)) (key : String) :
    lookupA (l.map (fun p => (p.1, f p.2))) key = (lookupA l key).map f := by
  induction l with
  | nil => rfl
  | cons p rest ih =>
    by_cases h : p.1 = key
    · simp [lookupA, h]
    · simp [lookupA, h, ih]

theorem map_pair_eta {β γ : Type} (l : List (β × γ)) :
    l.map (fun p => (p.1, p.2)) = l := by
  induction l with
  | nil => rfl
  | cons p rest ih => simp [ih]

/-- The `CNNDecoder` tensors that matter to the state claims, with the
autograd flag made explicit so that `detach` is observable. -/
structure CTensor : Type where
  data : List (List (List ℚ))
  requiresGrad : Bool
  deriving DecidableEq, Repr

/-- Elementwise sum of two rank-3 tensors (equal shapes assumed by torch). -/
def add3 (a b : List (List (List ℚ))) : List (List (List ℚ)) :=
  (a.zip b).map (fun pm =>
    (pm.1.zip pm.2).map (fun pr => (pr.1.zip pr.2).map (fun pe => pe.1 + pe.2)))

/-- Scalar multiplication of a rank-3 tensor. -/
def scale3 (w : ℚ) (a : List (List (List ℚ))) : List (List (List ℚ)) :=
  a.map (fun m => m.map (fun r => r.map (fun x => w * x)))

/-- Model of `tensor.detach()`: same values, autograd history severed. -/
def CTensor.detach (t : CTensor) : CTensor :=
  { data := t.data, requiresGrad := false }

/-- Concatenation along dimension 0, `torch.cat([a, b], 0)`. -/
def CTensor.cat0 (a b : CTensor) : CTensor :=
  { data := a.data ++ b.data, requiresGrad := a.requiresGrad || b.requiresGrad }

/-- The `CNNDecoder.state` dict: `src` and the running decoded prefix. -/
structure CNNState : Type where
  src : CTensor
  previous_input : Option CTensor
  deriving DecidableEq, Repr

/-- Model of `CNNDecoder.init_state(_, memory_bank, enc_hidden)`:
`src = (memory_bank + enc_hidden) * SCALE_WEIGHT` and
`previous_input = None`.  `SCALE_WEIGHT = 0.5 ** 0.5` is an irrational float
constant; the model takes the scale factor as a parameter. -/
def cnn_init_state (scale_weight : ℚ) (memory_bank enc_hidden : CTensor) :
    CNNState :=
  { src := { data := scale3 scale_weight (add3 memory_bank.data enc_hidden.data),
             requiresGrad := memory_bank.requiresGrad || enc_hidden.requiresGrad },
    previous_input := none }

/-- Model of `CNNDecoder.update_state(new_input)`. -/
def cnn_update_state (new_input : CTensor) (st : CNNState) : CNNState :=
  { st with previous_input := some new_input }

/-- The state effect of `CNNDecoder.forward(tgt, ...)`: the target is
prepended with `previous_input` when present and `update_state` records the
concatenated prefix; the convolutional stack itself does not touch the
state. -/
def cnn_forward_state (tgt : CTensor) (st : CNNState) : CNNState :=
  let tgt' := match st.previous_input with
    | some prev => prev.cat0 tgt
    | none => tgt
  cnn_update_state tgt' st

/-- Model of `CNNDecoder.detach_state()`:
`self.state["previous_input"] = self.state["previous_input"].detach()` —
attribute access on Python `None` raises `AttributeError` when no forward
call has happened since `init_state`. -/
def cnn_detach_state (st : CNNState) : Except PyErr CNNState :=
  match st.previous_input with
  | none => .error .attributeError
  | some t => .ok { st with previous_input := some t.detach }

theorem flatten_length_eq_of_forall₂ {β γ : Type} {A : List (List β)}
    {B : List (List γ)}
    (h : List.Forall₂ (fun a b => a.length = b.length) A B) :
    A.flatten.length = B.flatten.length := by
  induction h with
  | nil => rfl
  | cons hab _ ih => simp [List.flatten_cons, hab, ih]

/-- Summing a row-wise criterion over aligned chunk pairs equals summing it
over the unchunked pair: the additivity fact behind shard-equals-monolithic.
The `Forall₂` hypothesis is the no-edge-effect alignment: equal dimension-0
lengths and equal per-position batch widths. -/
theorem sum_chunks_zip {β γ : Type} (h : β → γ → ℚ) (s : Nat) (hs : 0 < s) :
    ∀ (A : List (List β)) (B : List (List γ)),
      List.Forall₂ (fun a b => a.length = b.length) A B →
      (((chunksOf s A).zip (chunksOf s B)).map
        (fun p => ((p.1.flatten.zip p.2.flatten).map
          (fun q => h q.1 q.2)).sum)).sum =
      ((A.flatten.zip B.flatten).map (fun q => h q.1 q.2)).sum := by
  have key : ∀ (n : Nat) (A : List (List β)) (B : List (List γ)),
      A.length ≤ n →
      List.Forall₂ (fun a b => a.length = b.length) A B →
      (((chunksOf s A).zip (chunksOf s B)).map
        (fun p => ((p.1.flatten.zip p.2.flatten).map
          (fun q => h q.1 q.2)).sum)).sum =
      ((A.flatten.zip B.flatten).map (fun q => h q.1 q.2)).sum := by
    intro n
    induction n with
    | zero =>
      intro A B hA hf
      have hAe : A = [] := List.eq_nil_of_length_eq_zero (Nat.le_zero.mp hA)
      subst hAe
      have hBe : B = [] := List.forall₂_nil_left_iff.mp hf
      subst hBe
      simp [chunksOf_nil]
    | succ n ih =>
      intro A B hA hf
      by_cases hAe : A = []
      · subst hAe
        have hBe : B = [] := List.forall₂_nil_left_iff.mp hf
        subst hBe
        simp [chunksOf_nil]
      · have hBe : B ≠ [] := by
          intro hc
          subst hc
          exact hAe (List.forall₂_nil_right_iff.mp hf)
        have hsplit : ((A.flatten.zip B.flatten).map
            (fun q => h q.1 q.2)).sum =
            (((A.take s).flatten.zip (B.take s).flatten).map
              (fun q => h q.1 q.2)).sum +
            (((A.drop s).flatten.zip (B.drop s).flatten).map
              (fun q => h q.1 q.2)).sum := by
          conv_lhs =>
            rw [← List.take_append_drop s A, ← List.take_append_drop s B]
          rw [List.flatten_append, List.flatten_append,
            List.zip_append
              (flatten_length_eq_of_forall₂ (List.forall₂_take s hf)),
            List.map_append, List.sum_append]
        rw [chunksOf_cons_eq s hs A hAe, chunksOf_cons_eq s hs B hBe,
          List.zip_cons_cons, List.map_cons, List.sum_cons]
        have hlen : (A.drop s).length ≤ n := by
          have : 0 < A.length := List.length_pos.mpr hAe
          simp only [List.length_drop]
          omega
        rw [ih (A.drop s) (B.drop s) hlen (List.forall₂_drop s hf), hsplit]
  intro A B hf
  exact key A.length A B (Nat.le_refl _) hf

/-- The loss component of `_compute_loss` as a single zip-sum over rows
(the generator fused into the per-row criterion). -/
theorem nmt_loss_val_eq (g : List ℚ → List ℚ) (f : List ℚ → Int → ℚ)
    (pad : Int) (o : List (List (List ℚ))) (t : List (List Int)) (b : Bool) :
    (nmt_compute_loss g f pad o t b).1 =
      ((o.flatten.zip t.flatten).map (fun q => f (g q.1) q.2)).sum := by
  simp only [nmt_compute_loss, bottle, List.zip_map_left, List.map_map]
  congr 1

theorem enumFrom_map_snd_comp {β γ : Type} (G : β → γ) :
    ∀ (l : List β) (n : Nat),
      (List.enumFrom n l).map (fun ip => G ip.2) = l.map G := by
  intro l
  induction l with
  | nil => intro n; rfl
  | cons x rest ih =>
    intro n
    rw [List.enumFrom_cons, List.map_cons, List.map_cons, ih (n + 1)]

theorem Statistics.update_empty_left (a : Statistics) :
    Statistics.empty.update a = a := by
  obtain ⟨l, w, c⟩ := a
  simp [Statistics.update, Statistics.empty]

theorem Statistics.update_empty_right (a : Statistics) :
    a.update Statistics.empty = a := by
  obtain ⟨l, w, c⟩ := a
  simp [Statistics.update, Statistics.empty]

theorem foldl_update_empty_stats (g : List ℚ → List ℚ)
    (f : List ℚ → Int → ℚ) (pad : Int) :
    ∀ (l : List (List (List (List ℚ)) × List (List Int))) (n : Nat)
      (acc : Statistics), 0 < n →
      ((List.enumFrom n l).map
        (fun ip => nmt_compute_loss g f pad ip.2.1 ip.2.2 (ip.1 = 0))).foldl
          (fun acc r => acc.update r.2) acc = acc := by
  intro l
  induction l with
  | nil => intro n acc _; rfl
  | cons p rest ih =>
    intro n acc hn
    rw [List.enumFrom_cons, List.map_cons, List.foldl_cons]
    have hflag : (decide (n = 0)) = false := by
      simp [Nat.pos_iff_ne_zero.mp hn]
    have hstats : (nmt_compute_loss g f pad p.1 p.2 (n = 0)).2 =
        Statistics.empty := by
      simp only [nmt_compute_loss, hflag]
      rfl
    rw [hstats, Statistics.update_empty_right]
    exact ih (n + 1) acc (Nat.succ_pos n)

/-- Claim C1: for every shard state mapping keys to tensors with equal batch
dimension `n` and every positive `shard_size`, `shards` yields one dictionary
per chunk index, whose chunks have at most `shard_size` rows and are taken in
original slicing order, so that for every key position, concatenating the
per-shard chunks in yield order reconstructs the original tensor exactly
(the 4-row/shard-size-2 instance with exactly 2 shards of 2 rows is checked
in the witness). -/
theorem C1_shards_reconstruct {α : Type} (s n : Nat)
    (state : List (String × List α)) (hs : 0 < s) (hne : state ≠ [])
    (hlen : ∀ p ∈ state, p.2.length = n) :
    (shards s (state.map (fun p => (p.1, some p.2)))).length = numChunks s n ∧
    (∀ shard ∈ shards s (state.map (fun p => (p.1, some p.2))),
      ∀ q ∈ shard, q.2.length ≤ s) ∧
    (∀ i : Nat, i < state.length →
      ((shards s (state.map (fun p => (p.1, some p.2)))).map
        (fun shard => (shard.getD i ("", [])).2)).flatten =
        (state.getD i ("", [])).2) := by
  have hsu := shards_uniform s n state hne hlen
  refine ⟨?_, ?_, ?_⟩
  · rw [hsu]
    simp
  · intro shard hshard q hq
    rw [hsu] at hshard
    obtain ⟨j, hj, hje⟩ := List.mem_map.mp hshard
    subst hje
    obtain ⟨p, hp, hpe⟩ := List.mem_map.mp hq
    subst hpe
    by_cases hjlt : j < (chunksOf s p.2).length
    · exact chunksOf_mem_length_le s p.2 _ (getD_mem_of_lt _ _ _ hjlt)
    · rw [getD_eq_default_of_le _ _ _ (Nat.le_of_not_lt hjlt)]
      simp
  · intro i hi
    rw [hsu, List.map_map]
    have hpt : ∀ j ∈ List.range (numChunks s n),
        ((fun shard => (shard.getD i ("", ([] : List α))).2) ∘
          (fun j => state.map
            (fun p => (p.1, (chunksOf s p.2).getD j [])))) j =
        (chunksOf s (state.getD i ("", [])).2).getD j [] := by
      intro j _
      show ((state.map
        (fun p => (p.1, (chunksOf s p.2).getD j []))).getD i ("", [])).2 = _
      rw [getD_map_of_lt (fun p => (p.1, (chunksOf s p.2).getD j [])) state i
        ("", []) ("", []) hi]
    rw [List.map_congr_left hpt]
    have hlen_i : (state.getD i ("", [])).2.length = n :=
      hlen _ (getD_mem_of_lt state ("", []) i hi)
    have hc : numChunks s n =
        (chunksOf s (state.getD i ("", [])).2).length := by
      rw [chunksOf_length_eq_numChunks, hlen_i]
    rw [hc, range_map_getD]
    exact flatten_chunksOf s hs _

theorem C1_witness :
    (0 < 2 ∧
      (([("x", [(10 : Int), 20, 30, 40])].all
        (fun p => p.2.length == 4)) = true)) ∧
    ((shards 2 ([("x", [(10 : Int), 20, 30, 40])].map
      (fun p => (p.1, some p.2)))).map
        (fun shard => (shard.getD 0 ("", [])).2)).flatten =
      ([("x", [(10 : Int), 20, 30, 40])].getD 0 ("", [])).2 ∧
    shards 2 [("x", some [(10 : Int), 20, 30, 40])] =
      [[("x", [10, 20])], [("x", [30, 40])]] :=
  ⟨⟨by decide, by decide⟩,
    (C1_shards_reconstruct 2 4 [("x", [10, 20, 30, 40])] (by decide)
      (by decide) (by decide)).2.2 0 (by decide),
    by decide⟩

/-- Counterexample to claim C3: a shard state whose per-key chunk sequences
have different lengths ("a" gives 2 chunks of size 2, "b" gives 1) makes
`shards` silently yield exactly the single zip-truncated shard — no error is
raised by the iteration — and the yielded chunks for "a" no longer
reconstruct the original tensor. -/
theorem C3_counterexample :
    shards 2 [("a", some [(1 : Int), 2, 3, 4]), ("b", some [5, 6])] =
      [[("a", [1, 2]), ("b", [5, 6])]] ∧
    ((shards 2 [("a", some [(1 : Int), 2, 3, 4]),
        ("b", some [5, 6])]).map
      (fun shard => (shard.getD 0 ("", [])).2)).flatten ≠ [1, 2, 3, 4] := by
  decide

/-- Claim C3 (amended): `shards` contains no alignment validation: for every
shard state, mismatched or not, the yield loop is total — the number of
yielded shards is the minimum chunk count across keys (Python
`zip(*values)` truncation) and the `filter_shard_state` generator run
finishes without raising — so misaligned states are silently truncated
instead of failing loudly. -/
theorem C3_shards_truncates {α : Type} (s : Nat)
    (state : List (String × Option (List α))) :
    (shards s state).length =
      minChunks ((filter_shard_state s state).map (fun p => p.2.2)) ∧
    filterShardStateRun (some s) state =
      ((filter_shard_state s state).map
        (fun p => (p.1, FSYield.paired p.2)), (none : Option PyErr)) := by
  constructor
  · simp [shards, transposeMin]
  · exact filterShardStateRun_some s state

/-- Claim C5 (evaluation of the code at the failing input): with
`eval_only=True`, `shards` yields the lazy `filter_shard_state(state)`
generator; consuming it on a state holding one 1-row tensor yields the pair
`("output", v)` once and then raises `TypeError` from
`torch.split(v, None)` — `filter_shard_state` falls through past the
`shard_size is None` yield into the splitting branch — instead of producing
each (key, value) pair exactly once without error. -/
theorem C5_eval_only_crashes :
    filterShardStateRun (none : Option Nat) [("output", some [(0 : Int)])] =
      ([("output", FSYield.plain (some [0]))], some PyErr.typeError) := rfl

/-- Counterexample to claim C4: for `batch.tgt = [[0],[1],[2],[3]]` and the
half-open range `(0, 4)` the code builds `target = batch.tgt[1:4] =
[[1],[2],[3]]`, not the claimed restriction to `[0, 4)` (which would be the
whole tensor). -/
theorem C4_counterexample :
    (nmt_make_shard_state [] [[(0 : Int)], [1], [2], [3]] (0, 4)).target =
      [[1], [2], [3]] ∧
    (nmt_make_shard_state [] [[(0 : Int)], [1], [2], [3]] (0, 4)).target ≠
      make_shard_state_target_spec [[(0 : Int)], [1], [2], [3]] (0, 4) := by
  decide

/-- Claim C4 (amended): the shard state built by
`NMTLossCompute._make_shard_state` holds exactly the two tensors consumed by
`_compute_loss` — `output` unchanged and `target` — with the target
restricted to positions `[range_start + 1, range_end)` of `batch.tgt` (one
past the claimed start: the gold tokens are shifted one step relative to the
decoder outputs). -/
theorem C4_make_shard_state (output : List (List (List ℚ)))
    (tgt : List (List Int)) (range_ : Nat × Nat) :
    (nmt_make_shard_state output tgt range_).output = output ∧
    (nmt_make_shard_state output tgt range_).target.length =
      min range_.2 tgt.length - (range_.1 + 1) ∧
    (∀ j : Nat, range_.1 + 1 + j < range_.2 →
      (nmt_make_shard_state output tgt range_).target[j]? =
        tgt[range_.1 + 1 + j]?) := by
  refine ⟨rfl, ?_, ?_⟩
  · simp [nmt_make_shard_state, slicePy]
  · intro j hj
    simp only [nmt_make_shard_state, slicePy]
    rw [List.getElem?_drop, List.getElem?_take, if_pos (by omega)]

theorem C4_witness :
    (0 + 1 + 1 < 4) ∧
    (nmt_make_shard_state [] [[(0 : Int)], [1], [2], [3]] (0, 4)).target[1]? =
      [[(0 : Int)], [1], [2], [3]][0 + 1 + 1]? :=
  ⟨by decide,
    (C4_make_shard_state [] [[(0 : Int)], [1], [2], [3]] (0, 4)).2.2 1
      (by decide)⟩

/-- Counterexample to claim C6: `LabelSmoothingLoss.__init__` has no
assertion on the vocabulary size; with `tgt_vocab_size = 1 < 3` (and
`ignore_index = 0` in bounds, smoothing `1` in `(0, 1]`) construction
succeeds instead of raising — the negative smoothing mass lands on the one
entry and is then overwritten by the `ignore_index` zeroing. -/
theorem C6_counterexample :
    labelSmoothingInit 1 1 0 =
      .ok { one_hot := [0], confidence := 0, ignore_index := 0 } ∧
    (1 : Nat) < 3 := by
  constructor
  · have h1 : ¬¬(0 < (1 : ℚ) ∧ (1 : ℚ) ≤ 1) := by norm_num
    have h2 : ¬((1 : Nat) = 2) := by decide
    rw [labelSmoothingInit, if_neg h1, if_neg h2]
    simp [setIndexPy]
  · decide

/-- Claim C6 (amended): configuration errors fail fast at construction:
`build_loss_compute` raises its assertion whenever both top-k (`opt.k > 0`)
and bisection (`opt.bisect_iter > 0`) are requested, and
`LabelSmoothingLoss` construction raises whenever `label_smoothing` lies
outside `(0, 1]`, and raises (a `ZeroDivisionError`) when the target
vocabulary size is exactly 2 — but not for every vocabulary size below 3,
as the counterexample at size 1 shows. -/
theorem C6_construction_asserts :
    (∀ opt : LossOpt, 0 < opt.k → 0 < opt.bisect_iter →
      build_loss_compute opt = .error .assertionError) ∧
    (∀ (ls : ℚ) (v : Nat) (i : Int), ¬(0 < ls ∧ ls ≤ 1) →
      labelSmoothingInit ls v i = .error .assertionError) ∧
    (∀ (ls : ℚ) (i : Int), 0 < ls → ls ≤ 1 →
      labelSmoothingInit ls 2 i = .error .zeroDivisionError) := by
  refine ⟨?_, ?_, ?_⟩
  · intro opt hk hb
    have hc : ¬(opt.k = 0 ∨ opt.bisect_iter = 0) := by omega
    simp [build_loss_compute, hc]
  · intro ls v i h
    simp [labelSmoothingInit, h]
  · intro ls i h1 h2
    have hc : ¬¬(0 < ls ∧ ls ≤ 1) := not_not.mpr ⟨h1, h2⟩
    rw [labelSmoothingInit, if_neg hc, if_pos rfl]

theorem C6_witness :
    (0 < (1 : Nat) ∧ 0 < (1 : Nat) ∧
      build_loss_compute
        { loss_fn := "", loss_alpha := 2, k := 1, bisect_iter := 1 } =
          .error .assertionError) ∧
    (¬(0 < (2 : ℚ) ∧ (2 : ℚ) ≤ 1) ∧
      labelSmoothingInit 2 5 0 = .error .assertionError) ∧
    (0 < (1 : ℚ) ∧ (1 : ℚ) ≤ 1 ∧
      labelSmoothingInit 1 2 0 = .error .zeroDivisionError) :=
  ⟨⟨by decide, by decide,
      C6_construction_asserts.1
        { loss_fn := "", loss_alpha := 2, k := 1, bisect_iter := 1 }
        (by decide) (by decide)⟩,
    ⟨by decide, C6_construction_asserts.2.1 2 5 0 (by decide)⟩,
    ⟨by decide, by decide,
      C6_construction_asserts.2.2 1 0 (by decide) (by decide)⟩⟩

theorem getD_range_of_lt (n l : Nat) (h : l < n) :
    (List.range n).getD l 0 = l := by
  rw [List.getD_eq_getElem?_getD, List.getElem?_range h]
  rfl

/-- Claim C7: on the first incremental forward call (`step == 0`) the
transformer decoder allocates exactly one cache entry per layer, named
`layer_0 .. layer_{num_layers - 1}`: for scaled-dot self-attention each
entry holds `memory_keys`, `memory_values`, `self_keys`, `self_values`, all
`None`; for average self-attention each entry instead holds the running
accumulator `prev_g` initialized to zeros of shape
`(memory_bank.size(1), 1, memory_bank.size(-1))` alongside the two `None`
memory slots. -/
theorem C7_init_cache (memory_bank : List (List (List ℚ)))
    (num_layers : Nat) (prev : Option (List (String × LayerCache))) :
    (decoderForwardCache (some 0) prev memory_bank num_layers "scaled-dot" =
        some (init_cache memory_bank num_layers "scaled-dot") ∧
      decoderForwardCache (some 0) prev memory_bank num_layers "average" =
        some (init_cache memory_bank num_layers "average")) ∧
    (init_cache memory_bank num_layers "scaled-dot").length = num_layers ∧
    (init_cache memory_bank num_layers "average").length = num_layers ∧
    (∀ l : Nat, l < num_layers →
      (init_cache memory_bank num_layers "scaled-dot").getD l ("", []) =
        ("layer_" ++ toString l,
          [("memory_keys", none), ("memory_values", none),
           ("self_keys", none), ("self_values", none)])) ∧
    (∀ l : Nat, l < num_layers →
      (init_cache memory_bank num_layers "average").getD l ("", []) =
        ("layer_" ++ toString l,
          [("memory_keys", none), ("memory_values", none),
           ("prev_g", some (zeros3 (size1 memory_bank) 1
             (sizeLast memory_bank)))])) := by
  refine ⟨⟨rfl, rfl⟩, by simp [init_cache], by simp [init_cache], ?_, ?_⟩
  · intro l hl
    simp only [init_cache]
    rw [getD_map_of_lt _ (List.range num_layers) l 0 ("", [])
      (by simpa using hl)]
    rw [getD_range_of_lt num_layers l hl]
    simp
  · intro l hl
    simp only [init_cache]
    rw [getD_map_of_lt _ (List.range num_layers) l 0 ("", [])
      (by simpa using hl)]
    rw [getD_range_of_lt num_layers l hl]
    simp

theorem C7_witness :
    (1 < 2) ∧
    (init_cache [[[(1 : ℚ), 2], [3, 4]]] 2 "average").getD 1 ("", []) =
      ("layer_" ++ toString 1,
        [("memory_keys", none), ("memory_values", none),
         ("prev_g", some (zeros3 (size1 [[[(1 : ℚ), 2], [3, 4]]]) 1
           (sizeLast [[[(1 : ℚ), 2], [3, 4]]])))]) :=
  ⟨by decide,
    (C7_init_cache [[[(1 : ℚ), 2], [3, 4]]] 2 none).2.2.2.2 1 (by decide)⟩

theorem lc_map_id (lc : LayerCache) :
    lc.map (fun q => (q.1, q.2.map (fun t => t))) = lc := by
  induction lc with
  | nil => rfl
  | cons q rest ih =>
    obtain ⟨k, v⟩ := q
    cases v <;> simp [ih]

/-- Claim C8: `TransformerDecoder.map_state` with the identity function
leaves `src` and every cache leaf unchanged; with the batch-reversal
function it reverses the batch-indexed dimension of every leaf tensor —
`src` along its batch dimension 1, every (possibly `None`-skipped) cache
leaf, including a nested average-attention `prev_g`, along its batch
dimension 0. -/
theorem C8_map_state (st : TransformerState) :
    map_state (fun v _ => v) st = st ∧
    (map_state revDim st).src = st.src.map List.reverse ∧
    (∀ layer key : String,
      cacheLeaf (map_state revDim st) layer key =
        (cacheLeaf st layer key).map (Option.map List.reverse)) := by
  refine ⟨?_, rfl, ?_⟩
  · obtain ⟨src, cache⟩ := st
    simp only [map_state]
    congr 1
    cases cache with
    | none => rfl
    | some c =>
      simp only [Option.map_some']
      congr 1
      induction c with
      | nil => rfl
      | cons p rest ih =>
        obtain ⟨k, lc⟩ := p
        simp only [List.map_cons, ih, lc_map_id, map_pair_eta]
  · intro layer key
    obtain ⟨src, cache⟩ := st
    cases cache with
    | none => rfl
    | some c =>
      show ((lookupA (c.map (fun p => (p.1, p.2.map
          (fun q => (q.1, q.2.map (fun t => revDim t 0)))))) layer).bind
        (fun lc => lookupA lc key)) =
        ((lookupA c layer).bind (fun lc => lookupA lc key)).map
          (Option.map List.reverse)
      rw [lookupA_map_value]
      cases hl : lookupA c layer with
      | none => rfl
      | some lc =>
        simp only [Option.map_some', Option.some_bind]
        rw [lookupA_map_value]
        cases hk : lookupA lc key with
        | none => rfl
        | some v =>
          cases v with
          | none => rfl
          | some t => simp [revDim]

/-- Claim C10: `CNNDecoder.detach_state` in the state produced by
`init_state` alone (where `previous_input` is `None`) raises
`AttributeError` instead of being a no-op; after any forward call — which
always stores a tensor into `previous_input` — it succeeds. -/
theorem C10_cnn_detach (w : ℚ) (memory_bank enc_hidden tgt : CTensor)
    (st : CNNState) :
    cnn_detach_state (cnn_init_state w memory_bank enc_hidden) =
      .error .attributeError ∧
    (cnn_detach_state (cnn_forward_state tgt st)).isOk = true := by
  constructor
  · rfl
  · rfl

theorem enumFrom_map_loss_fst (g : List ℚ → List ℚ) (f : List ℚ → Int → ℚ)
    (pad : Int) :
    ∀ (l : List (List (List (List ℚ)) × List (List Int))) (n : Nat),
      ((List.enumFrom n l).map
        (fun ip => nmt_compute_loss g f pad ip.2.1 ip.2.2 (ip.1 = 0))).map
          Prod.fst =
      l.map (fun p => (nmt_compute_loss g f pad p.1 p.2 true).1) := by
  intro l
  induction l with
  | nil => intro n; rfl
  | cons p rest ih =>
    intro n
    rw [List.enumFrom_cons, List.map_cons, List.map_cons, List.map_cons,
      ih (n + 1)]
    rfl

/-- Claim C2: for a fixed row-wise generator `g` and sum-reduction criterion
`f` (the collaborator contracts of the loss engine) and aligned inputs with
no padding-mask edge effects, the total loss accumulated by
`sharded_compute_loss` over the full truncation range `(0, tgt.length)` —
the sum of per-shard raw losses, before the division by `normalization` —
equals the loss computed by the single unsharded `_compute_loss` call of
`monolithic_compute_loss` (exact equality, as the model uses rational
arithmetic in place of floating point). -/
theorem C2_sharded_eq_monolithic (g : List ℚ → List ℚ)
    (f : List ℚ → Int → ℚ) (pad : Int) (output : List (List (List ℚ)))
    (tgt : List (List Int)) (s : Nat) (hs : 0 < s)
    (hal : List.Forall₂ (fun o t => o.length = t.length) output
      (slicePy 1 tgt.length tgt)) :
    sharded_compute_loss_total g f pad output tgt 0 tgt.length s =
      monolithic_loss_val g f pad output tgt := by
  have key : (((chunksOf s output).zip
      (chunksOf s (slicePy 1 tgt.length tgt))).map
      (fun p => ((p.1.flatten.zip p.2.flatten).map
        (fun q => f (g q.1) q.2)).sum)).sum =
      ((output.flatten.zip (slicePy 1 tgt.length tgt).flatten).map
        (fun q => f (g q.1) q.2)).sum :=
    sum_chunks_zip (fun orow tok => f (g orow) tok) s hs output _ hal
  simp only [sharded_compute_loss_total, sharded_shard_results,
    nmt_make_shard_state, monolithic_loss_val, Nat.zero_add]
  rw [show ((chunksOf s output).zip
      (chunksOf s (slicePy 1 tgt.length tgt))).enum =
    List.enumFrom 0 ((chunksOf s output).zip
      (chunksOf s (slicePy 1 tgt.length tgt))) from rfl]
  rw [enumFrom_map_loss_fst g f pad _ 0]
  rw [List.map_congr_left
    (fun p _ => nmt_loss_val_eq g f pad p.1 p.2 true)]
  rw [key]
  rw [← nmt_loss_val_eq g f pad output (slicePy 1 tgt.length tgt) true]

theorem C2_witness :
    (0 < 2) ∧
    List.Forall₂
      (fun (o : List (List ℚ)) (t : List Int) => o.length = t.length)
      [[[1]], [[1]], [[1]], [[1]]]
      (slicePy 1 ([[(0 : Int)], [0], [0], [0], [0]]).length
        [[(0 : Int)], [0], [0], [0], [0]]) ∧
    sharded_compute_loss_total (fun r => r) (fun _ _ => 0) 0
      [[[1]], [[1]], [[1]], [[1]]] [[(0 : Int)], [0], [0], [0], [0]]
      0 5 2 =
    monolithic_loss_val (fun r => r) (fun _ _ => 0) 0
      [[[1]], [[1]], [[1]], [[1]]] [[(0 : Int)], [0], [0], [0], [0]] :=
  ⟨by decide, by simp [slicePy],
    C2_sharded_eq_monolithic (fun r => r) (fun _ _ => 0) 0
      [[[1]], [[1]], [[1]], [[1]]] [[(0 : Int)], [0], [0], [0], [0]] 2
      (by decide) (by simp [slicePy])⟩

theorem le_fst_of_mem_enumFrom {β : Type} :
    ∀ (l : List β) (n : Nat) (x : Nat × β),
      x ∈ List.enumFrom n l → n ≤ x.1 := by
  intro l
  induction l with
  | nil =>
    intro n x hx
    simp [List.enumFrom] at hx
  | cons b rest ih =>
    intro n x hx
    rw [List.enumFrom_cons] at hx
    rcases List.mem_cons.mp hx with h | h
    · subst h
      exact Nat.le_refl n
    · exact Nat.le_trans (Nat.le_succ n) (ih (n + 1) x h)

/-- Claim C9: whenever the shard state splits into two or more shards,
`sharded_compute_loss` obtains non-trivial statistics only from the first
shard: every shard after the first is evaluated with
`should_compute_stats = False` and contributes `Statistics()` — so the
merged accumulator equals the first shard's statistics, while the backward
loop still runs over all shards. -/
theorem C9_first_shard_stats (g : List ℚ → List ℚ) (f : List ℚ → Int → ℚ)
    (pad : Int) (output : List (List (List ℚ))) (tgt : List (List Int))
    (ct ts s : Nat)
    (h2 : 2 ≤ (sharded_shard_results g f pad output tgt ct ts s).length) :
    (∀ r ∈ (sharded_shard_results g f pad output tgt ct ts s).drop 1,
      r.2 = Statistics.empty) ∧
    sharded_compute_loss_stats g f pad output tgt ct ts s =
      (nmt_compute_loss g f pad
        (((chunksOf s output).zip
          (chunksOf s (slicePy (ct + 1) (ct + ts) tgt))).getD 0
            ([], [])).1
        (((chunksOf s output).zip
          (chunksOf s (slicePy (ct + 1) (ct + ts) tgt))).getD 0
            ([], [])).2 true).2 := by
  have hres : sharded_shard_results g f pad output tgt ct ts s =
      ((chunksOf s output).zip
        (chunksOf s (slicePy (ct + 1) (ct + ts) tgt))).enum.map
        (fun ip => nmt_compute_loss g f pad ip.2.1 ip.2.2 (ip.1 = 0)) := rfl
  cases hp : ((chunksOf s output).zip
      (chunksOf s (slicePy (ct + 1) (ct + ts) tgt))) with
  | nil =>
    rw [hres, hp] at h2
    simp at h2
  | cons p0 rest =>
    constructor
    · intro r hr
      rw [hres, hp] at hr
      simp only [List.enum_cons, List.map_cons, List.drop_succ_cons,
        List.drop_zero] at hr
      obtain ⟨ip, hip, hipe⟩ := List.mem_map.mp hr
      subst hipe
      have h1le : 1 ≤ ip.1 := le_fst_of_mem_enumFrom rest 1 ip hip
      have hne : ip.1 ≠ 0 := by omega
      have hflag : (decide (ip.1 = 0)) = false := by simp [hne]
      show (nmt_compute_loss g f pad ip.2.1 ip.2.2 (ip.1 = 0)).2 =
        Statistics.empty
      simp only [nmt_compute_loss, hflag]
      rfl
    · simp only [sharded_compute_loss_stats]
      rw [hres, hp]
      simp only [List.enum_cons, List.map_cons, List.foldl_cons]
      rw [Statistics.update_empty_left]
      rw [foldl_update_empty_stats g f pad rest 1 _ Nat.one_pos]
      rfl

theorem C9_witness :
    2 ≤ (sharded_shard_results (fun r => r) (fun _ _ => 0) 0
      [[[(1 : ℚ)]], [[1]], [[1]], [[1]]]
      [[(0 : Int)], [0], [0], [0], [0]] 0 5 2).length ∧
    sharded_compute_loss_stats (fun r => r) (fun _ _ => 0) 0
      [[[(1 : ℚ)]], [[1]], [[1]], [[1]]]
      [[(0 : Int)], [0], [0], [0], [0]] 0 5 2 =
      (nmt_compute_loss (fun r => r) (fun _ _ => 0) 0
        (((chunksOf 2 [[[(1 : ℚ)]], [[1]], [[1]], [[1]]]).zip
          (chunksOf 2 (slicePy (0 + 1) (0 + 5)
            [[(0 : Int)], [0], [0], [0], [0]]))).getD 0 ([], [])).1
        (((chunksOf 2 [[[(1 : ℚ)]], [[1]], [[1]], [[1]]]).zip
          (chunksOf 2 (slicePy (0 + 1) (0 + 5)
            [[(0 : Int)], [0], [0], [0], [0]]))).getD 0 ([], [])).2
        true).2 :=
  ⟨by decide,
    (C9_first_shard_stats (fun r => r) (fun _ _ => 0) 0
      [[[(1 : ℚ)]], [[1]], [[1]], [[1]]]
      [[(0 : Int)], [0], [0], [0], [0]] 0 5 2 (by decide)).2⟩
